import Mathlib

/-!
Verification of the nexus-zkvm prover orchestration layer.

This file embeds, as Lean definitions, the parts of the prover crate that the
verified properties are about:

* `Machine::max_log_size` and the `log_size` computation of `Machine::prove`
  (src/prover/src/machine.rs);
* the prove/verify orchestration of `Machine` (src/prover/src/machine.rs),
  with the cryptographic backend (commitments, transcript channel, STARK
  prover) abstracted as parameters, following the spec's treatment of the
  backend as an external collaborator;
* the bitwise-operation lookup table component
  (src/prover/src/extensions/bit_op.rs);
* `ColumnNameMap` (src/prover/src/utils.rs);
* the trace-finalization domain reordering
  (`coset_order_to_circle_domain_order` followed by `bit_reverse`,
  src/prover/src/utils.rs).
-/

/-! ## Sizing (src/prover/src/machine.rs, `Machine::max_log_size`) -/

/-- Rust `usize::next_power_of_two`: the smallest power of two greater than or
equal to `n` (and `1` for `n = 0`). -/
def nextPowerOfTwo (n : Nat) : Nat :=
  if n ≤ 1 then 1 else 2 * nextPowerOfTwo ((n + 1) / 2)
decreasing_by
  simp_wf
  omega

/-- Rust `u64::trailing_zeros` (as a `Nat`); `64` on input `0`, matching the
bit width of `usize`. -/
def trailingZeros (n : Nat) : Nat :=
  if n = 0 then 64
  else if n % 2 = 1 then 0
  else trailingZeros (n / 2) + 1
decreasing_by
  simp_wf
  omega

/-- `Machine::max_log_size`: maps each size through
`next_power_of_two().trailing_zeros()` and takes the maximum.  The source
panics on an empty slice; the fold with base `0` agrees with it on every
non-empty input (all values are nonnegative). -/
def max_log_size (sizes : List Nat) : Nat :=
  (sizes.map fun size => trailingZeros (nextPowerOfTwo size)).foldr max 0

/-- Modelled from the spec: `PreprocessedTraces::MIN_LOG_SIZE` (the `trace`
module is not part of the inspected source).  The spec fixes the value `4`
(for example, six execution steps with `MIN_LOG_SIZE = 4` yield
`log_size = 4`). -/
def MIN_LOG_SIZE : Nat := 4

/-- The `log_size` computed at the start of `Machine::prove` from the number
of execution steps, the program length and the total count of public memory
entries. -/
def proveLogSize (numSteps programLen memoryLen : Nat) : Nat :=
  max (max_log_size [numSteps, programLen, memoryLen]) MIN_LOG_SIZE

theorem nextPowerOfTwo_eq_pow_clog (n : Nat) :
    nextPowerOfTwo n = 2 ^ Nat.clog 2 n := by
  induction n using Nat.strong_induction_on with
  | _ n ih =>
    rw [nextPowerOfTwo]
    by_cases h : n ≤ 1
    · rw [if_pos h]
      interval_cases n
      · simp
      · simp
    · rw [if_neg h]
      rw [ih ((n + 1) / 2) (by omega)]
      have hn : 2 ≤ n := by omega
      rw [Nat.clog_of_two_le one_lt_two hn]
      have harg : (n + 2 - 1) / 2 = (n + 1) / 2 := by omega
      rw [harg, pow_succ]
      ring

theorem trailingZeros_two_pow (k : Nat) : trailingZeros (2 ^ k) = k := by
  induction k with
  | zero => simp [trailingZeros]
  | succ k ih =>
    rw [trailingZeros]
    have h2 : (2 : Nat) ^ (k + 1) = 2 * 2 ^ k := by rw [pow_succ]; ring
    have hpos : 0 < (2 : Nat) ^ (k + 1) := Nat.pos_pow_of_pos _ (by omega)
    rw [if_neg (by omega)]
    rw [if_neg (by omega)]
    rw [h2]
    rw [Nat.mul_div_cancel_left _ (by omega)]
    rw [ih]

theorem sizeLog_eq_clog (n : Nat) :
    trailingZeros (nextPowerOfTwo n) = Nat.clog 2 n := by
  rw [nextPowerOfTwo_eq_pow_clog, trailingZeros_two_pow]

/-- Claim C3: `prove` computes `log_size` as the smallest integer `L` such
that `2^L` is at least the number of steps, at least the program length and
at least the public-memory entry count, and `L ≥ MIN_LOG_SIZE`. -/
theorem prove_log_size_least (n p m : Nat) :
    (n ≤ 2 ^ proveLogSize n p m ∧ p ≤ 2 ^ proveLogSize n p m ∧
      m ≤ 2 ^ proveLogSize n p m ∧ MIN_LOG_SIZE ≤ proveLogSize n p m) ∧
    (∀ L, n ≤ 2 ^ L → p ≤ 2 ^ L → m ≤ 2 ^ L → MIN_LOG_SIZE ≤ L →
      proveLogSize n p m ≤ L) := by
  have hlog : proveLogSize n p m =
      max (max (Nat.clog 2 n) (max (Nat.clog 2 p) (max (Nat.clog 2 m) 0)))
        MIN_LOG_SIZE := by
    simp [proveLogSize, max_log_size, sizeLog_eq_clog]
  constructor
  · refine ⟨?_, ?_, ?_, ?_⟩
    · rw [Nat.le_pow_iff_clog_le one_lt_two, hlog]; omega
    · rw [Nat.le_pow_iff_clog_le one_lt_two, hlog]; omega
    · rw [Nat.le_pow_iff_clog_le one_lt_two, hlog]; omega
    · rw [hlog]; omega
  · intro L hn hp hm hmin
    rw [Nat.le_pow_iff_clog_le one_lt_two] at hn hp hm
    rw [hlog]
    omega

/-- Witness for C3: six execution steps with small program and memory views
yield `log_size = 4` (sixteen rows, not eight). -/
theorem prove_log_size_least_witness :
    proveLogSize 6 16 16 = 4 ∧ 6 ≤ 2 ^ proveLogSize 6 16 16 := by
  have h := prove_log_size_least 6 16 16
  have hle : proveLogSize 6 16 16 ≤ 4 :=
    h.2 4 (by decide) (by decide) (by decide) (by decide)
  have hge : MIN_LOG_SIZE ≤ proveLogSize 6 16 16 := h.1.2.2.2
  exact ⟨le_antisymm hle hge, h.1.1⟩

/-! ## Machine orchestration (src/prover/src/machine.rs)

The cryptographic backend (stwo commitments, Blake2s transcript channel,
STARK prover) is an external collaborator; it is abstracted as a bundle of
functions.  The chip layer (`fill_main_trace`, `generate_interaction_trace`)
lives in repository modules outside the inspected source and is likewise
abstracted; the zero-sum property of a correctly generated interaction trace
is modelled from the spec as a hypothesis. -/

/-- The static public view consumed by `prove` and `verify`
(`nexus_vm::emulator::View`): program memory, initial memory entries, exit
code entries and public output entries. -/
structure View (Inst MemE OutE : Type) where
  program : List Inst
  initMemory : List MemE
  exitCode : List OutE
  publicOutput : List OutE

/-- Abstract backend operations used by `Machine::prove` / `Machine::verify`.
`mix` is `tree_builder.commit(channel)` advancing the transcript with a
commitment; `commitPrep` commits the preprocessed trace (a pure function of
`log_size`); `commitProg` commits the program trace (a pure function of
`log_size` and the static view); `buildMain` stands for the chips filling
the main trace and side note from the execution steps; `genInteraction`
produces the interaction trace and the claimed logup sum from the main
trace and the drawn lookup elements. -/
structure Backend (Step Inst MemE OutE Commitment Channel LookupElems
    MainTrace IntTrace BProof F : Type) where
  initChannel : Channel
  mix : Channel → Commitment → Channel
  commitPrep : Nat → Commitment
  buildMain : List Step → View Inst MemE OutE → Nat → MainTrace
  commitMain : MainTrace → Commitment
  drawElems : Channel → LookupElems × Channel
  genInteraction : MainTrace → LookupElems → IntTrace × F
  commitInt : IntTrace → Commitment
  commitProg : Nat → View Inst MemE OutE → Commitment
  starkProve : MainTrace → IntTrace → Channel → BProof
  starkVerify : Nat → LookupElems → F → Commitment → Commitment →
    Commitment → Commitment → Channel → BProof → Bool

/-- The proof record produced by `Machine::prove`: the backend STARK proof,
the claimed logup sum and `log_size`.  The four trace commitments are
carried inside the stwo `StarkProof` (`proof.commitments`); they are modelled
as explicit fields. -/
structure Proof (Commitment BProof F : Type) where
  bproof : BProof
  claimedSum : F
  logSize : Nat
  cPrep : Commitment
  cMain : Commitment
  cInt : Commitment
  cProg : Commitment

/-- Operations performed by `Machine::prove`, in source order
(machine.rs lines 144-183). -/
inductive PEvent where
  | commitPreprocessed
  | commitMain
  | drawLookupElements
  | generateInteraction
  | commitInteraction
  | commitProgram
  | starkProve
deriving DecidableEq, BEq

/-- Structural and backend verification failures of `Machine::verify`.
The first three correspond to `VerificationError::InvalidStructure` with
messages naming, respectively, the non-zero claimed sum, the preprocessed
trace and the program trace; the last stands for any error returned by the
backend `verify`. -/
inductive VError where
  | claimedSumNonzero
  | preprocessedCommitmentMismatch
  | programCommitmentMismatch
  | backendFailure
deriving DecidableEq

/-- Operations performed by `Machine::verify` after the claimed-sum check:
local recomputation of the two public commitments, transcript mixing,
lookup-element drawing and the backend cryptographic check. -/
inductive VEvent where
  | recomputePreprocessedCommitment
  | recomputeProgramCommitment
  | mixChannel
  | drawLookupElements
  | backendVerify
deriving DecidableEq

/-- All intermediate values of one run of `Machine::prove`
(machine.rs lines 93-190), in data-flow order: the preprocessed and main
commitments seed the channel, the lookup elements are drawn from the
post-commitment channel, the interaction trace is generated from the main
trace and the elements, and the interaction and program commitments advance
the channel before the backend prover runs. -/
structure ProveRun (Commitment Channel LookupElems MainTrace IntTrace
    BProof F : Type) where
  logSize : Nat
  prepCommitment : Commitment
  mainTrace : MainTrace
  mainCommitment : Commitment
  elems : LookupElems
  intTrace : IntTrace
  claimedSum : F
  intCommitment : Commitment
  progCommitment : Commitment
  finalChannel : Channel
  bproof : BProof

def proveRun {Step Inst MemE OutE Commitment Channel LookupElems MainTrace
    IntTrace BProof F : Type}
    (B : Backend Step Inst MemE OutE Commitment Channel LookupElems
      MainTrace IntTrace BProof F)
    (steps : List Step) (view : View Inst MemE OutE) :
    ProveRun Commitment Channel LookupElems MainTrace IntTrace BProof F :=
  let logSize := proveLogSize steps.length view.program.length
    (view.initMemory.length + view.exitCode.length + view.publicOutput.length)
  let mainTrace := B.buildMain steps view logSize
  let prepCommitment := B.commitPrep logSize
  let ch1 := B.mix B.initChannel prepCommitment
  let mainCommitment := B.commitMain mainTrace
  let ch2 := B.mix ch1 mainCommitment
  let elems := (B.drawElems ch2).1
  let ch3 := (B.drawElems ch2).2
  let gen := B.genInteraction mainTrace elems
  let intCommitment := B.commitInt gen.1
  let ch4 := B.mix ch3 intCommitment
  let progCommitment := B.commitProg logSize view
  let ch5 := B.mix ch4 progCommitment
  { logSize := logSize
    prepCommitment := prepCommitment
    mainTrace := mainTrace
    mainCommitment := mainCommitment
    elems := elems
    intTrace := gen.1
    claimedSum := gen.2
    intCommitment := intCommitment
    progCommitment := progCommitment
    finalChannel := ch5
    bproof := B.starkProve mainTrace gen.1 ch5 }

/-- `Machine::prove`, packaging the run into a `Proof` together with the
ordered log of transcript-relevant operations (machine.rs lines 144-183). -/
def Machine.prove {Step Inst MemE OutE Commitment Channel LookupElems
    MainTrace IntTrace BProof F : Type}
    (B : Backend Step Inst MemE OutE Commitment Channel LookupElems
      MainTrace IntTrace BProof F)
    (steps : List Step) (view : View Inst MemE OutE) :
    Proof Commitment BProof F × List PEvent :=
  let r := proveRun B steps view
  (⟨r.bproof, r.claimedSum, r.logSize, r.prepCommitment, r.mainCommitment,
      r.intCommitment, r.progCommitment⟩,
    [PEvent.commitPreprocessed, PEvent.commitMain, PEvent.drawLookupElements,
      PEvent.generateInteraction, PEvent.commitInteraction,
      PEvent.commitProgram, PEvent.starkProve])

/-- `Machine::verify` (machine.rs lines 192-299), together with the log of
operations it performed: the claimed-sum check comes first, then the local
recomputation and comparison of the preprocessed- and program-trace
commitments, then the transcript phase (mixing the proof's commitments in
prover order and re-drawing the lookup elements) and the backend check. -/
def Machine.verify {Step Inst MemE OutE Commitment Channel LookupElems
    MainTrace IntTrace BProof F : Type} [DecidableEq Commitment]
    [DecidableEq F] [Zero F]
    (B : Backend Step Inst MemE OutE Commitment Channel LookupElems
      MainTrace IntTrace BProof F)
    (proof : Proof Commitment BProof F) (view : View Inst MemE OutE) :
    Except VError Unit × List VEvent :=
  if proof.claimedSum = 0 then
    let prepExpected := B.commitPrep proof.logSize
    if prepExpected = proof.cPrep then
      let progExpected := B.commitProg proof.logSize view
      if progExpected = proof.cProg then
        let ch1 := B.mix B.initChannel proof.cPrep
        let ch2 := B.mix ch1 proof.cMain
        let elems := (B.drawElems ch2).1
        let ch3 := (B.drawElems ch2).2
        let ch4 := B.mix ch3 proof.cInt
        let ch5 := B.mix ch4 proof.cProg
        let evs := [VEvent.recomputePreprocessedCommitment,
          VEvent.recomputeProgramCommitment, VEvent.mixChannel,
          VEvent.mixChannel, VEvent.drawLookupElements, VEvent.mixChannel,
          VEvent.mixChannel, VEvent.backendVerify]
        if B.starkVerify proof.logSize elems proof.claimedSum proof.cPrep
            proof.cMain proof.cInt proof.cProg ch5 proof.bproof then
          (Except.ok (), evs)
        else
          (Except.error VError.backendFailure, evs)
      else
        (Except.error VError.programCommitmentMismatch,
          [VEvent.recomputePreprocessedCommitment,
            VEvent.recomputeProgramCommitment])
    else
      (Except.error VError.preprocessedCommitmentMismatch,
        [VEvent.recomputePreprocessedCommitment])
  else
    (Except.error VError.claimedSumNonzero, [])

/-- Claim C1: for every execution-step sequence and view whose honestly
generated interaction trace has zero claimed sum (the spec's validity
condition, modelled from the spec's zero-sum invariant) and for every
backend that accepts the STARK proof it produced at the prover's final
transcript state, verifying the proof produced by proving succeeds: the
verifier's structural checks pass and it reconstructs the prover's
transcript state and lookup elements exactly. -/
theorem machine_prove_verify_round_trip
    {Step Inst MemE OutE Commitment Channel LookupElems MainTrace IntTrace
      BProof F : Type} [DecidableEq Commitment] [DecidableEq F] [Zero F]
    (B : Backend Step Inst MemE OutE Commitment Channel LookupElems
      MainTrace IntTrace BProof F)
    (steps : List Step) (view : View Inst MemE OutE)
    (hsum : (proveRun B steps view).claimedSum = 0)
    (hbackend : B.starkVerify (proveRun B steps view).logSize
      (proveRun B steps view).elems (proveRun B steps view).claimedSum
      (proveRun B steps view).prepCommitment
      (proveRun B steps view).mainCommitment
      (proveRun B steps view).intCommitment
      (proveRun B steps view).progCommitment
      (proveRun B steps view).finalChannel
      (proveRun B steps view).bproof = true) :
    (Machine.verify B (Machine.prove B steps view).1 view).1 =
      Except.ok () := by
  simp only [Machine.prove, Machine.verify, proveRun] at hsum hbackend ⊢
  rw [hsum] at hbackend
  simp [hsum, hbackend]

/-- Claim C2: whenever the proof's claimed sum is not zero, `Machine::verify`
returns the structural claimed-sum error and performs no commitment
recomputation, transcript operation or backend check at all (its operation
log is empty); consequently verification succeeds only if the claimed sum is
zero. -/
theorem machine_verify_nonzero_claimed_sum
    {Step Inst MemE OutE Commitment Channel LookupElems MainTrace IntTrace
      BProof F : Type} [DecidableEq Commitment] [DecidableEq F] [Zero F]
    (B : Backend Step Inst MemE OutE Commitment Channel LookupElems
      MainTrace IntTrace BProof F)
    (proof : Proof Commitment BProof F) (view : View Inst MemE OutE)
    (h : proof.claimedSum ≠ 0) :
    Machine.verify B proof view =
      (Except.error VError.claimedSumNonzero, ([] : List VEvent)) := by
  unfold Machine.verify
  rw [if_neg h]

/-- Claim C4: in `Machine::prove` the preprocessed-trace commitment and then
the main-trace commitment advance the transcript before any lookup element
is drawn, and the lookup elements are drawn before the interaction trace is
generated and committed and before the program trace is committed. -/
theorem machine_prove_transcript_order
    {Step Inst MemE OutE Commitment Channel LookupElems MainTrace IntTrace
      BProof F : Type}
    (B : Backend Step Inst MemE OutE Commitment Channel LookupElems
      MainTrace IntTrace BProof F)
    (steps : List Step) (view : View Inst MemE OutE) :
    (Machine.prove B steps view).2.indexOf PEvent.commitPreprocessed <
        (Machine.prove B steps view).2.indexOf PEvent.commitMain ∧
      (Machine.prove B steps view).2.indexOf PEvent.commitMain <
        (Machine.prove B steps view).2.indexOf PEvent.drawLookupElements ∧
      (Machine.prove B steps view).2.indexOf PEvent.drawLookupElements <
        (Machine.prove B steps view).2.indexOf PEvent.generateInteraction ∧
      (Machine.prove B steps view).2.indexOf PEvent.drawLookupElements <
        (Machine.prove B steps view).2.indexOf PEvent.commitInteraction ∧
      (Machine.prove B steps view).2.indexOf PEvent.drawLookupElements <
        (Machine.prove B steps view).2.indexOf PEvent.commitProgram := by
  simp only [Machine.prove]
  decide

/-- Claim C5: after the claimed-sum check, `Machine::verify` recomputes the
preprocessed-trace commitment (a pure function of `log_size`) and the
program-trace commitment (a pure function of `log_size` and the public
view), compares each with the commitment carried in the proof, and on
mismatch returns a structural error naming the failing phase. -/
theorem machine_verify_commitment_mismatch
    {Step Inst MemE OutE Commitment Channel LookupElems MainTrace IntTrace
      BProof F : Type} [DecidableEq Commitment] [DecidableEq F] [Zero F]
    (B : Backend Step Inst MemE OutE Commitment Channel LookupElems
      MainTrace IntTrace BProof F)
    (proof : Proof Commitment BProof F) (view : View Inst MemE OutE) :
    (proof.claimedSum = 0 → B.commitPrep proof.logSize ≠ proof.cPrep →
      Machine.verify B proof view =
        (Except.error VError.preprocessedCommitmentMismatch,
          [VEvent.recomputePreprocessedCommitment])) ∧
    (proof.claimedSum = 0 → B.commitPrep proof.logSize = proof.cPrep →
      B.commitProg proof.logSize view ≠ proof.cProg →
      Machine.verify B proof view =
        (Except.error VError.programCommitmentMismatch,
          [VEvent.recomputePreprocessedCommitment,
            VEvent.recomputeProgramCommitment])) := by
  constructor
  · intro hsum hprep
    unfold Machine.verify
    rw [if_pos hsum, if_neg hprep]
  · intro hsum hprep hprog
    unfold Machine.verify
    rw [if_pos hsum, if_pos hprep, if_neg hprog]

/-- A concrete backend instance over `Nat` data and `Int` field elements,
used to evaluate the orchestration theorems on closed inputs. -/
def testBackend : Backend Nat Nat Nat Nat Nat Nat Nat Nat Nat Nat Int where
  initChannel := 0
  mix := fun c x => 2 * c + x + 1
  commitPrep := fun _ => 0
  buildMain := fun _ _ _ => 0
  commitMain := fun _ => 0
  drawElems := fun c => (c, c + 1)
  genInteraction := fun _ _ => (0, 0)
  commitInt := fun _ => 0
  commitProg := fun _ _ => 0
  starkProve := fun _ _ _ => 0
  starkVerify := fun _ _ _ _ _ _ _ _ _ => true

/-- An empty public view over `Nat` entries, for closed evaluation. -/
def testView : View Nat Nat Nat := ⟨[], [], [], []⟩

/-- A proof record carrying a non-zero claimed sum. -/
def testProofBadSum : Proof Nat Nat Int := ⟨0, 1, 4, 0, 0, 0, 0⟩

/-- A proof record with zero claimed sum whose preprocessed-trace commitment
does not match the recomputed one. -/
def testProofBadPrep : Proof Nat Nat Int := ⟨0, 0, 4, 1, 0, 0, 0⟩

/-- A proof record with zero claimed sum and matching preprocessed-trace
commitment whose program-trace commitment does not match. -/
def testProofBadProg : Proof Nat Nat Int := ⟨0, 0, 4, 0, 0, 0, 1⟩

/-- Witness for C1: on a concrete backend and empty step list, verifying the
proof produced by proving succeeds. -/
theorem machine_prove_verify_round_trip_witness :
    (Machine.verify testBackend (Machine.prove testBackend [] testView).1
      testView).1 = Except.ok () :=
  machine_prove_verify_round_trip testBackend [] testView rfl rfl

/-- Witness for C2: a concrete proof with claimed sum `1` is rejected with
the claimed-sum structural error and an empty operation log. -/
theorem machine_verify_nonzero_claimed_sum_witness :
    Machine.verify testBackend testProofBadSum testView =
      (Except.error VError.claimedSumNonzero, ([] : List VEvent)) :=
  machine_verify_nonzero_claimed_sum testBackend testProofBadSum testView
    (by decide)

/-- Witness for C5: concrete proofs with a mismatched preprocessed-trace,
respectively program-trace, commitment are rejected with the structural
error naming that phase. -/
theorem machine_verify_commitment_mismatch_witness :
    Machine.verify testBackend testProofBadPrep testView =
      (Except.error VError.preprocessedCommitmentMismatch,
        [VEvent.recomputePreprocessedCommitment]) ∧
    Machine.verify testBackend testProofBadProg testView =
      (Except.error VError.programCommitmentMismatch,
        [VEvent.recomputePreprocessedCommitment,
          VEvent.recomputeProgramCommitment]) :=
  ⟨(machine_verify_commitment_mismatch testBackend testProofBadPrep
      testView).1 rfl (by decide),
    (machine_verify_commitment_mismatch testBackend testProofBadProg
      testView).2 rfl rfl (by decide)⟩

/-! ## Bitwise lookup table (src/prover/src/extensions/bit_op.rs)

The table spans `2^8 = 256` rows, one per pair of 4-bit operands.  Column
values are small naturals (all below the M31 modulus), so the `BaseField`
elements are embedded as `Nat`; the multiplicity numerators of the
interaction trace are embedded as `Int` with negation explicit, and the
lookup-element combination of a tuple is an abstract function into the
extension field. -/

set_option maxRecDepth 8000

/-- The bitwise operation kind (`chips::instructions::bit_op::BitOp`). -/
inductive BitOp where
  | And
  | Or
  | Xor
deriving DecidableEq

/-- The native operation computed by each table column. -/
def BitOp.apply : BitOp → Nat → Nat → Nat
  | BitOp.And, b, c => b &&& c
  | BitOp.Or, b, c => b ||| c
  | BitOp.Xor, b, c => b ^^^ c

/-- The operand-pair enumeration of
`BitOpMultiplicity::preprocessed_base_columns`: all pairs `(b, c)` with
`b, c ∈ [0, 16)`, in b-major order. -/
def bitOpRangePairs : List (Nat × Nat) :=
  (List.range 16).flatMap fun b => (List.range 16).map fun c => (b, c)

/-- Preprocessed column of first operands. -/
def preprocessedInputB : List Nat := bitOpRangePairs.map fun p => p.1

/-- Preprocessed column of second operands. -/
def preprocessedInputC : List Nat := bitOpRangePairs.map fun p => p.2

/-- Preprocessed AND-output column. -/
def preprocessedOutputAnd : List Nat := bitOpRangePairs.map fun p => p.1 &&& p.2

/-- Preprocessed OR-output column. -/
def preprocessedOutputOr : List Nat := bitOpRangePairs.map fun p => p.1 ||| p.2

/-- Preprocessed XOR-output column. -/
def preprocessedOutputXor : List Nat := bitOpRangePairs.map fun p => p.1 ^^^ p.2

/-- `BitOpMultiplicity::preprocessed_base_columns`: the five preprocessed
columns in source order. -/
def preprocessed_base_columns : List (List Nat) :=
  [preprocessedInputB, preprocessedInputC, preprocessedOutputAnd,
    preprocessedOutputOr, preprocessedOutputXor]

/-- The bitwise part of the Side Note (`side_note.bit_op`): one multiplicity
map per relation, keyed by the row index `16 * b + c` of the looked-up pair.
The Rust `HashMap` is embedded as an association list. -/
structure BitOpSideNote where
  multiplicity_and : List (Nat × Nat)
  multiplicity_or : List (Nat × Nat)
  multiplicity_xor : List (Nat × Nat)

/-- `map.get(&i).copied().unwrap_or_default()`: the stored multiplicity, or
zero for a key absent from the map. -/
def lookupMultiplicity (m : List (Nat × Nat)) (k : Nat) : Nat :=
  (m.lookup k).getD 0

/-- The AND-multiplicity column of `BitOpMultiplicity::base_columns`: one
value per key `0..=255`. -/
def multColumnAnd (sn : BitOpSideNote) : List Nat :=
  (List.range 256).map (lookupMultiplicity sn.multiplicity_and)

/-- The OR-multiplicity column of `BitOpMultiplicity::base_columns`. -/
def multColumnOr (sn : BitOpSideNote) : List Nat :=
  (List.range 256).map (lookupMultiplicity sn.multiplicity_or)

/-- The XOR-multiplicity column of `BitOpMultiplicity::base_columns`. -/
def multColumnXor (sn : BitOpSideNote) : List Nat :=
  (List.range 256).map (lookupMultiplicity sn.multiplicity_xor)

/-- `BitOpMultiplicity::base_columns`: the three multiplicity columns, row
ordering matching the preprocessed value columns. -/
def base_columns (sn : BitOpSideNote) : List (List Nat) :=
  [multColumnAnd sn, multColumnOr sn, multColumnXor sn]

/-- `BitOpMultiplicity::generate_interaction_trace`, per logical row: for
each relation in source order `[And, Or, Xor]` and each of the 256 table
rows, one fraction whose numerator is the negated multiplicity from the
base columns and whose denominator is the lookup-element combination
`comb` of the tuple (operation kind value, operand b, operand c, answer)
read from the preprocessed columns.  `opv` is `BitOp::to_base_field`. -/
def bitOpInteractionTrace {F : Type} (comb : Nat → Nat → Nat → Nat → F)
    (opv : BitOp → Nat) (sn : BitOpSideNote) : List (List (Int × F)) :=
  [(BitOp.And, preprocessedOutputAnd, multColumnAnd sn),
    (BitOp.Or, preprocessedOutputOr, multColumnOr sn),
    (BitOp.Xor, preprocessedOutputXor, multColumnXor sn)].map fun t =>
    (List.range 256).map fun row =>
      (-((t.2.2.getD row 0 : Nat) : Int),
        comb (opv t.1) (preprocessedInputB.getD row 0)
          (preprocessedInputC.getD row 0) (t.2.1.getD row 0))

/-- Selects the side-note multiplicity map of a relation. -/
def BitOpSideNote.mult (sn : BitOpSideNote) : BitOp → List (Nat × Nat)
  | BitOp.And => sn.multiplicity_and
  | BitOp.Or => sn.multiplicity_or
  | BitOp.Xor => sn.multiplicity_xor

/-- Position of a relation in the interaction-trace column list. -/
def BitOp.index : BitOp → Nat
  | BitOp.And => 0
  | BitOp.Or => 1
  | BitOp.Xor => 2

theorem getD_map_range {α : Type} (n k : Nat) (f : Nat → α) (d : α)
    (h : k < n) : ((List.range n).map f).getD k d = f k := by
  rw [List.getD_eq_getElem?_getD, List.getElem?_map, List.getElem?_range h]
  rfl

theorem bitOpRangePairs_getD :
    ∀ k, k < 256 → bitOpRangePairs.getD k (0, 0) = (k / 16, k % 16) := by
  decide

theorem preprocessedInputB_getD :
    ∀ k, k < 256 → preprocessedInputB.getD k 0 = k / 16 := by
  decide

theorem preprocessedInputC_getD :
    ∀ k, k < 256 → preprocessedInputC.getD k 0 = k % 16 := by
  decide

theorem preprocessedOutputAnd_getD :
    ∀ k, k < 256 → preprocessedOutputAnd.getD k 0 = (k / 16) &&& (k % 16) := by
  decide

theorem preprocessedOutputOr_getD :
    ∀ k, k < 256 → preprocessedOutputOr.getD k 0 = (k / 16) ||| (k % 16) := by
  decide

theorem preprocessedOutputXor_getD :
    ∀ k, k < 256 → preprocessedOutputXor.getD k 0 = (k / 16) ^^^ (k % 16) := by
  decide

/-- Claim C6: the preprocessed bitwise table enumerates exactly the 256
operand pairs `(b, c)` with `b, c ∈ [0, 16)` in b-major order, and at every
such row the AND, OR and XOR output columns equal the native bitwise
operations. -/
theorem bit_op_preprocessed_table (b c : Nat) (hb : b < 16) (hc : c < 16) :
    bitOpRangePairs.length = 256 ∧
    bitOpRangePairs.getD (16 * b + c) (0, 0) = (b, c) ∧
    preprocessedOutputAnd.getD (16 * b + c) 0 = b &&& c ∧
    preprocessedOutputOr.getD (16 * b + c) 0 = b ||| c ∧
    preprocessedOutputXor.getD (16 * b + c) 0 = b ^^^ c := by
  have hk : 16 * b + c < 256 := by omega
  have h1 : (16 * b + c) / 16 = b := by omega
  have h2 : (16 * b + c) % 16 = c := by omega
  refine ⟨by decide, ?_, ?_, ?_, ?_⟩
  · rw [bitOpRangePairs_getD _ hk, h1, h2]
  · rw [preprocessedOutputAnd_getD _ hk, h1, h2]
  · rw [preprocessedOutputOr_getD _ hk, h1, h2]
  · rw [preprocessedOutputXor_getD _ hk, h1, h2]

/-- Witness for C6: row `16 * 3 + 5` of the table holds the pair `(3, 5)`
and the outputs `3 AND 5 = 1`, `3 OR 5 = 7`, `3 XOR 5 = 6`. -/
theorem bit_op_preprocessed_table_witness :
    bitOpRangePairs.getD (16 * 3 + 5) (0, 0) = (3, 5) ∧
    preprocessedOutputAnd.getD (16 * 3 + 5) 0 = 1 ∧
    preprocessedOutputOr.getD (16 * 3 + 5) 0 = 7 ∧
    preprocessedOutputXor.getD (16 * 3 + 5) 0 = 6 := by
  have h := bit_op_preprocessed_table 3 5 (by decide) (by decide)
  exact ⟨h.2.1, h.2.2.1.trans (by decide), h.2.2.2.1.trans (by decide),
    h.2.2.2.2.trans (by decide)⟩

/-- Claim C10: `base_columns` yields one multiplicity value for each of the
256 keys per relation, equal to the side-note entry for that key, and zero
for every key absent from the corresponding multiplicity map. -/
theorem bit_op_multiplicity_defaults (sn : BitOpSideNote) :
    (base_columns sn).length = 3 ∧
    (∀ col ∈ base_columns sn, col.length = 256) ∧
    (∀ op : BitOp, ∀ k, k < 256 →
      ((base_columns sn).getD op.index []).getD k 0 =
        lookupMultiplicity (sn.mult op) k) ∧
    (∀ op : BitOp, ∀ k, (sn.mult op).lookup k = none →
      lookupMultiplicity (sn.mult op) k = 0) := by
  refine ⟨rfl, ?_, ?_, ?_⟩
  · intro col hcol
    simp only [base_columns, List.mem_cons, List.not_mem_nil, or_false]
      at hcol
    rcases hcol with h | h | h <;> subst h <;>
      simp [multColumnAnd, multColumnOr, multColumnXor]
  · intro op k hk
    cases op
    · exact getD_map_range 256 k _ 0 hk
    · exact getD_map_range 256 k _ 0 hk
    · exact getD_map_range 256 k _ 0 hk
  · intro op k h
    cases op <;> simp only [BitOpSideNote.mult] at h ⊢ <;>
      simp [lookupMultiplicity, h]

/-- A concrete side note: the AND pair at row 53 (operands 3 and 5) was
looked up seven times; nothing else was looked up. -/
def testSideNote : BitOpSideNote := ⟨[(53, 7)], [], []⟩

/-- Witness for C10: the stored multiplicity appears at its key, and keys
absent from the maps give zero. -/
theorem bit_op_multiplicity_defaults_witness :
    ((base_columns testSideNote).getD BitOp.And.index []).getD 53 0 = 7 ∧
    ((base_columns testSideNote).getD BitOp.And.index []).getD 3 0 = 0 ∧
    ((base_columns testSideNote).getD BitOp.Xor.index []).getD 53 0 = 0 := by
  have h := bit_op_multiplicity_defaults testSideNote
  exact ⟨(h.2.2.1 BitOp.And 53 (by decide)).trans (by decide),
    (h.2.2.1 BitOp.And 3 (by decide)).trans (by decide),
    (h.2.2.1 BitOp.Xor 53 (by decide)).trans (by decide)⟩

/-- Claim C7: the table-providing side of the bitwise interaction trace
contributes, per relation, exactly one fraction per distinct table entry
(256 rows), with numerator the negated accumulated side-note multiplicity
of that entry and denominator the lookup-element combination of the tuple
(operation kind, b, c, result) — never one fraction per occurrence. -/
theorem bit_op_interaction_per_entry {F : Type}
    (comb : Nat → Nat → Nat → Nat → F) (opv : BitOp → Nat)
    (sn : BitOpSideNote) :
    (bitOpInteractionTrace comb opv sn).length = 3 ∧
    (∀ col ∈ bitOpInteractionTrace comb opv sn, col.length = 256) ∧
    (∀ op : BitOp, ∀ k, k < 256 →
      ((bitOpInteractionTrace comb opv sn).getD op.index [])[k]? =
        some (-(lookupMultiplicity (sn.mult op) k : Int),
          comb (opv op) (k / 16) (k % 16)
            (op.apply (k / 16) (k % 16)))) := by
  refine ⟨rfl, ?_, ?_⟩
  · intro col hcol
    simp only [bitOpInteractionTrace, List.map_cons, List.map_nil,
      List.mem_cons, List.not_mem_nil, or_false] at hcol
    rcases hcol with h | h | h <;> subst h <;> simp
  · intro op k hk
    have hb := preprocessedInputB_getD k hk
    have hc := preprocessedInputC_getD k hk
    cases op
    · have ha := preprocessedOutputAnd_getD k hk
      have hm : (multColumnAnd sn).getD k 0 =
          lookupMultiplicity sn.multiplicity_and k :=
        getD_map_range 256 k _ 0 hk
      simp only [List.getD_eq_getElem?_getD] at hb hc ha hm
      simp [bitOpInteractionTrace, BitOp.index, BitOpSideNote.mult,
        BitOp.apply, List.getElem?_map, List.getElem?_range hk, hb, hc, ha,
        hm]
    · have ha := preprocessedOutputOr_getD k hk
      have hm : (multColumnOr sn).getD k 0 =
          lookupMultiplicity sn.multiplicity_or k :=
        getD_map_range 256 k _ 0 hk
      simp only [List.getD_eq_getElem?_getD] at hb hc ha hm
      simp [bitOpInteractionTrace, BitOp.index, BitOpSideNote.mult,
        BitOp.apply, List.getElem?_map, List.getElem?_range hk, hb, hc, ha,
        hm]
    · have ha := preprocessedOutputXor_getD k hk
      have hm : (multColumnXor sn).getD k 0 =
          lookupMultiplicity sn.multiplicity_xor k :=
        getD_map_range 256 k _ 0 hk
      simp only [List.getD_eq_getElem?_getD] at hb hc ha hm
      simp [bitOpInteractionTrace, BitOp.index, BitOpSideNote.mult,
        BitOp.apply, List.getElem?_map, List.getElem?_range hk, hb, hc, ha,
        hm]

/-- Witness for C7: with a concrete tuple-recording combination, the AND
relation's fraction at row 53 has numerator `-7` (the accumulated
multiplicity of the pair `(3, 5)`) and denominator built from the tuple
`(kind, 3, 5, 1)`. -/
theorem bit_op_interaction_per_entry_witness :
    ((bitOpInteractionTrace (fun a b c d => ((a, b), (c, d)))
        BitOp.index testSideNote).getD BitOp.And.index [])[53]? =
      some (-7, ((0, 3), (5, 1))) := by
  have h := bit_op_interaction_per_entry
    (fun a b c d => ((a, b), (c, d))) BitOp.index testSideNote
  exact (h.2.2 BitOp.And 53 (by decide)).trans (by decide)

/-! ## Column registry (src/prover/src/utils.rs, `ColumnNameMap`)

`ColumnNameMap::new` folds over `T::items()` in declaration order, assigning
each column the range `next..next + size` and advancing `next`.  The
declaration list is embedded as an ordered list of (name, width) pairs; the
enum column types of the source have pairwise distinct variants, which is
the nodup hypothesis. -/

/-- The range-assignment fold inside `ColumnNameMap::new`. -/
def buildRanges {Name : Type} (next : Nat) :
    List (Name × Nat) → List (Name × Nat × Nat)
  | [] => []
  | (nm, size) :: rest =>
      (nm, next, next + size) :: buildRanges (next + size) rest

/-- `ColumnNameMap::new`: ranges for a declaration list, starting at zero. -/
def columnRanges {Name : Type} (decls : List (Name × Nat)) :
    List (Name × Nat × Nat) :=
  buildRanges 0 decls

/-- The running `next` accumulator of `ColumnNameMap::new`;
`total_columns()` returns its final value. -/
def totalNext {Name : Type} (next : Nat) : List (Name × Nat) → Nat
  | [] => next
  | (_, size) :: rest => totalNext (next + size) rest

/-- `ColumnNameMap::total_columns`. -/
def total_columns {Name : Type} (decls : List (Name × Nat)) : Nat :=
  totalNext 0 decls

/-- `ColumnNameMap::nth_col`: looks up the column's range and returns
`range.start + offset` under the assertion
`offset < range.end - range.start`; the panic paths (column missing from
the map, assertion failure) are `none`. -/
def nth_col {Name : Type} [DecidableEq Name] (decls : List (Name × Nat))
    (name : Name) (off : Nat) : Option Nat :=
  match (columnRanges decls).find? (fun r => decide (r.1 = name)) with
  | none => none
  | some (_, s, e) => if off < e - s then some (s + off) else none

/-- Sum of the widths of the first `i` declared columns. -/
def widthsBefore {Name : Type} (decls : List (Name × Nat)) (i : Nat) : Nat :=
  ((decls.take i).map Prod.snd).sum

theorem buildRanges_getElem? {Name : Type} (decls : List (Name × Nat)) :
    ∀ (next i : Nat) (nm : Name) (w : Nat), decls[i]? = some (nm, w) →
      (buildRanges next decls)[i]? =
        some (nm, next + widthsBefore decls i,
          next + widthsBefore decls i + w) := by
  induction decls with
  | nil => intro next i nm w h; simp at h
  | cons hd tl ih =>
    intro next i nm w h
    match i with
    | 0 =>
      simp only [List.getElem?_cons_zero, Option.some.injEq] at h
      subst h
      simp [buildRanges, widthsBefore]
    | i + 1 =>
      simp only [List.getElem?_cons_succ] at h
      have := ih (next + hd.2) i nm w h
      have harith : next + hd.2 + widthsBefore tl i =
          next + widthsBefore (hd :: tl) (i + 1) := by
        simp only [widthsBefore, List.take_succ_cons, List.map_cons,
          List.sum_cons]
        omega
      simp only [buildRanges, List.getElem?_cons_succ]
      rw [show buildRanges (next + hd.2) tl =
        buildRanges (next + hd.2) tl from rfl] at this ⊢
      rw [this, harith]

theorem totalNext_eq {Name : Type} (decls : List (Name × Nat)) :
    ∀ next, totalNext next decls = next + (decls.map Prod.snd).sum := by
  induction decls with
  | nil => intro next; simp [totalNext]
  | cons hd tl ih =>
    intro next
    simp only [totalNext, List.map_cons, List.sum_cons]
    rw [ih]
    omega

theorem sum_take_le_sum_take_succ (l : List Nat) :
    ∀ j, (l.take j).sum ≤ (l.take (j + 1)).sum := by
  induction l with
  | nil => intro j; simp
  | cons hd tl ih =>
    intro j
    match j with
    | 0 => simp
    | j + 1 =>
      simp only [List.take_succ_cons, List.sum_cons]
      exact Nat.add_le_add_left (ih j) hd

theorem widthsBefore_mono {Name : Type} (decls : List (Name × Nat))
    {i j : Nat} (h : i ≤ j) : widthsBefore decls i ≤ widthsBefore decls j := by
  induction j with
  | zero =>
    have hi : i = 0 := by omega
    subst hi
    exact le_refl _
  | succ j ih =>
    rcases Nat.lt_or_ge i (j + 1) with hlt | hge
    · have hij : i ≤ j := by omega
      exact le_trans (ih hij)
        (by
          simp only [widthsBefore, List.map_take]
          exact sum_take_le_sum_take_succ _ j)
    · have : i = j + 1 := by omega
      subst this
      exact le_refl _

theorem widthsBefore_succ {Name : Type} (decls : List (Name × Nat))
    (i : Nat) (nm : Name) (w : Nat) (h : decls[i]? = some (nm, w)) :
    widthsBefore decls (i + 1) = widthsBefore decls i + w := by
  induction decls generalizing i with
  | nil => simp at h
  | cons hd tl ih =>
    match i with
    | 0 =>
      simp only [List.getElem?_cons_zero, Option.some.injEq] at h
      subst h
      simp [widthsBefore]
    | i + 1 =>
      simp only [List.getElem?_cons_succ] at h
      have := ih i h
      simp only [widthsBefore, List.take_succ_cons, List.map_cons,
        List.sum_cons] at this ⊢
      omega

theorem find?_buildRanges {Name : Type} [DecidableEq Name]
    (decls : List (Name × Nat)) :
    (decls.map Prod.fst).Nodup →
    ∀ (next i : Nat) (nm : Name) (w : Nat), decls[i]? = some (nm, w) →
      (buildRanges next decls).find? (fun r => decide (r.1 = nm)) =
        some (nm, next + widthsBefore decls i,
          next + widthsBefore decls i + w) := by
  induction decls with
  | nil => intro _ next i nm w h; simp at h
  | cons hd tl ih =>
    intro hnd next i nm w h
    simp only [List.map_cons, List.nodup_cons] at hnd
    obtain ⟨hhd, htl⟩ := hnd
    match i with
    | 0 =>
      simp only [List.getElem?_cons_zero, Option.some.injEq] at h
      subst h
      simp only [buildRanges]
      rw [List.find?_cons_of_pos _ (by simp)]
      simp [widthsBefore]
    | i + 1 =>
      simp only [List.getElem?_cons_succ] at h
      have hmem : nm ∈ tl.map Prod.fst := by
        have hmem0 : (nm, w) ∈ tl := by
          obtain ⟨hlt, he⟩ := List.getElem?_eq_some.mp h
          exact he ▸ tl.getElem_mem hlt
        exact List.mem_map_of_mem Prod.fst hmem0
      have hne : hd.1 ≠ nm := fun hcontra => hhd (hcontra ▸ hmem)
      simp only [buildRanges]
      rw [List.find?_cons_of_neg _ (by simp [hne])]
      have := ih htl (next + hd.2) i nm w h
      have harith : next + hd.2 + widthsBefore tl i =
          next + widthsBefore (hd :: tl) (i + 1) := by
        simp only [widthsBefore, List.take_succ_cons, List.map_cons,
          List.sum_cons]
        omega
      rw [this, harith]

/-- Claim C8: for every declaration list, each column is assigned the
half-open range starting at the prefix sum of the widths of the previously
declared columns; `total_columns` is the sum of all widths; `nth_col`
returns `range.start + sub_index` when `sub_index < width` and fails
otherwise; and the assigned ranges are pairwise disjoint (the layout is a
pure function of the declaration list). -/
theorem column_name_map_layout {Name : Type} [DecidableEq Name]
    (decls : List (Name × Nat)) :
    (∀ i nm w, decls[i]? = some (nm, w) →
      (columnRanges decls)[i]? =
        some (nm, widthsBefore decls i, widthsBefore decls i + w)) ∧
    total_columns decls = (decls.map Prod.snd).sum ∧
    ((decls.map Prod.fst).Nodup →
      ∀ i nm w off, decls[i]? = some (nm, w) →
        nth_col decls nm off =
          if off < w then some (widthsBefore decls i + off) else none) ∧
    (∀ i j nmi wi nmj wj, i < j → decls[i]? = some (nmi, wi) →
      decls[j]? = some (nmj, wj) →
      widthsBefore decls i + wi ≤ widthsBefore decls j) := by
  refine ⟨?_, ?_, ?_, ?_⟩
  · intro i nm w h
    have := buildRanges_getElem? decls 0 i nm w h
    simpa [columnRanges] using this
  · simpa using totalNext_eq decls 0
  · intro hnd i nm w off h
    have hfind := find?_buildRanges decls hnd 0 i nm w h
    simp only [Nat.zero_add] at hfind
    unfold nth_col
    rw [show columnRanges decls = buildRanges 0 decls from rfl, hfind]
    have hdiff : widthsBefore decls i + w - widthsBefore decls i = w := by
      omega
    simp only [hdiff]
  · intro i j nmi wi nmj wj hij hi hj
    have hstep := widthsBefore_succ decls i nmi wi hi
    have hmono := widthsBefore_mono decls (show i + 1 ≤ j by omega)
    omega

/-- Witness for C8: for the declaration list
`[(10, 4), (11, 1), (12, 4)]`, the second column starts at offset 4,
`nth_col` rejects an out-of-range sub-index, the total width is 9 and the
first two ranges are disjoint. -/
theorem column_name_map_layout_witness :
    nth_col [((10 : Nat), 4), (11, 1), (12, 4)] 11 0 = some 4 ∧
    nth_col [((10 : Nat), 4), (11, 1), (12, 4)] 12 5 = none ∧
    total_columns [((10 : Nat), 4), (11, 1), (12, 4)] = 9 ∧
    widthsBefore [((10 : Nat), 4), (11, 1), (12, 4)] 0 + 4 ≤
      widthsBefore [((10 : Nat), 4), (11, 1), (12, 4)] 1 := by
  have h := column_name_map_layout [((10 : Nat), 4), (11, 1), (12, 4)]
  refine ⟨?_, ?_, ?_, ?_⟩
  · exact (h.2.2.1 (by decide) 1 11 1 0 (by decide)).trans (by decide)
  · exact (h.2.2.1 (by decide) 2 12 4 5 (by decide)).trans (by decide)
  · exact h.2.1.trans (by decide)
  · exact h.2.2.2 0 1 10 4 11 1 (by decide) (by decide) (by decide)

/-! ## Trace finalization reordering (src/prover/src/utils.rs)

`generate_trace` reorders every column by
`coset_order_to_circle_domain_order` followed by stwo's `bit_reverse`
before handing it to the commitment backend.  `bit_reverse` lives in the
stwo dependency; it is modelled from the spec as the standard bit-reversal
permutation of `2^k` row indices. -/

/-- `coset_order_to_circle_domain_order`: even indices in order, then odd
indices in reverse (`values[n - 1 - 2 * i]`). -/
def cosetOrderToCircleDomainOrder {α : Type} [Inhabited α]
    (values : List α) : List α :=
  ((List.range (values.length / 2)).map fun i =>
    values.getD (2 * i) default) ++
  ((List.range (values.length / 2)).map fun i =>
    values.getD (values.length - 1 - 2 * i) default)

/-- Modelled from the spec: the index map of stwo's `bit_reverse` — the
`k`-bit reversal of an index. -/
def reverseBits : Nat → Nat → Nat
  | 0, _ => 0
  | k + 1, i => reverseBits k (i / 2) + (i % 2) * 2 ^ k

/-- Modelled from the spec: stwo's `bit_reverse` on a column of `2^k` rows,
placing the element at index `reverseBits k j` at position `j`. -/
def bitReverse {α : Type} [Inhabited α] (k : Nat) (xs : List α) : List α :=
  (List.range (2 ^ k)).map fun j => xs.getD (reverseBits k j) default

/-- The index list realized by `cosetOrderToCircleDomainOrder`. -/
def cosetIndexList (n : Nat) : List Nat :=
  (List.range (n / 2)).map (fun i => 2 * i) ++
  (List.range (n / 2)).map (fun i => n - 1 - 2 * i)

theorem range_map_getD {α : Type} (xs : List α) (d : α) :
    (List.range xs.length).map (fun i => xs.getD i d) = xs := by
  induction xs with
  | nil => simp
  | cons x xs ih =>
    rw [List.length_cons, List.range_succ_eq_map]
    simp only [List.map_cons, List.map_map]
    have hcomp : ((fun i => (x :: xs).getD i d) ∘ Nat.succ) =
        fun i => xs.getD i d := by
      funext i
      simp
    rw [hcomp, ih]
    simp

theorem perm_range_of_index_list (n : Nat) (l : List Nat) (hnd : l.Nodup)
    (hsub : ∀ i ∈ l, i < n) (hlen : l.length = n) :
    l.Perm (List.range n) := by
  have hsubset : l ⊆ List.range n := fun i hi => List.mem_range.mpr (hsub i hi)
  exact (List.subperm_of_subset hnd hsubset).perm_of_length_le
    (by simp [hlen])

theorem perm_of_getD_map {α : Type} (xs : List α) (d : α) (l : List Nat)
    (h : l.Perm (List.range xs.length)) :
    (l.map fun i => xs.getD i d).Perm xs := by
  have := h.map (fun i => xs.getD i d)
  rwa [range_map_getD] at this

theorem cosetIndexList_perm (n : Nat) (h2 : n % 2 = 0) (_hpos : 0 < n) :
    (cosetIndexList n).Perm (List.range n) := by
  apply perm_range_of_index_list
  · rw [cosetIndexList, List.nodup_append]
    refine ⟨?_, ?_, ?_⟩
    · exact List.Nodup.map (fun a b hab => by omega) (List.nodup_range _)
    · apply List.Nodup.map_on _ (List.nodup_range _)
      intro a ha b hb hab
      rw [List.mem_range] at ha hb
      omega
    · intro a ha hb
      simp only [List.mem_map, List.mem_range] at ha hb
      obtain ⟨i, hi, hia⟩ := ha
      obtain ⟨j, hj, hja⟩ := hb
      omega
  · intro a ha
    rw [cosetIndexList, List.mem_append] at ha
    rcases ha with h | h <;> simp only [List.mem_map, List.mem_range] at h <;>
      obtain ⟨i, hi, hia⟩ := h <;> omega
  · simp [cosetIndexList]
    omega

theorem cosetOrder_eq_map {α : Type} [Inhabited α] (xs : List α) :
    cosetOrderToCircleDomainOrder xs =
      (cosetIndexList xs.length).map fun i => xs.getD i default := by
  rw [cosetOrderToCircleDomainOrder, cosetIndexList, List.map_append,
    List.map_map, List.map_map]
  rfl

theorem reverseBits_lt (k : Nat) : ∀ i, reverseBits k i < 2 ^ k := by
  induction k with
  | zero => intro i; simp [reverseBits]
  | succ k ih =>
    intro i
    have ha := ih (i / 2)
    have hp : (2 : Nat) ^ (k + 1) = 2 ^ k * 2 := pow_succ 2 k
    rw [show reverseBits (k + 1) i =
      reverseBits k (i / 2) + (i % 2) * 2 ^ k from rfl]
    rcases Nat.mod_two_eq_zero_or_one i with h | h <;> rw [h] <;> omega

theorem reverseBits_inj (k : Nat) :
    ∀ i j, i < 2 ^ k → j < 2 ^ k → reverseBits k i = reverseBits k j →
      i = j := by
  induction k with
  | zero =>
    intro i j hi hj _
    omega
  | succ k ih =>
    intro i j hi hj h
    have ha := reverseBits_lt k (i / 2)
    have hb := reverseBits_lt k (j / 2)
    have hp : (2 : Nat) ^ (k + 1) = 2 ^ k * 2 := pow_succ 2 k
    rw [show reverseBits (k + 1) i =
        reverseBits k (i / 2) + (i % 2) * 2 ^ k from rfl,
      show reverseBits (k + 1) j =
        reverseBits k (j / 2) + (j % 2) * 2 ^ k from rfl] at h
    have hmods : i % 2 = j % 2 := by
      rcases Nat.mod_two_eq_zero_or_one i with h1 | h1 <;>
        rcases Nat.mod_two_eq_zero_or_one j with h2 | h2 <;>
        rw [h1, h2] at h <;> omega
    have hrev : reverseBits k (i / 2) = reverseBits k (j / 2) := by
      rcases Nat.mod_two_eq_zero_or_one i with h1 | h1 <;>
        rcases Nat.mod_two_eq_zero_or_one j with h2 | h2 <;>
        rw [h1, h2] at h <;> omega
    have hdiv : i / 2 = j / 2 := ih _ _ (by omega) (by omega) hrev
    omega

/-- Claim C9: for a column of length `2^k` with `k ≥ 1`, the reordering
applied at trace finalization — `coset_order_to_circle_domain_order`
followed by `bit_reverse` — is a permutation of the row values: every input
value appears exactly once in the output (so the original column is
recoverable by the inverse permutation). -/
theorem finalize_reordering_perm {α : Type} [Inhabited α] (k : Nat)
    (hk : 1 ≤ k) (xs : List α) (hlen : xs.length = 2 ^ k) :
    (bitReverse k (cosetOrderToCircleDomainOrder xs)).Perm xs := by
  have heven : (2 : Nat) ^ k % 2 = 0 := by
    rcases k with _ | k
    · omega
    · rw [pow_succ]
      omega
  have hpos : 0 < (2 : Nat) ^ k := Nat.pos_pow_of_pos _ (by omega)
  have hcosetperm : (cosetOrderToCircleDomainOrder xs).Perm xs := by
    rw [cosetOrder_eq_map]
    apply perm_of_getD_map
    rw [hlen]
    exact cosetIndexList_perm _ heven hpos
  have hlen2 : (cosetOrderToCircleDomainOrder xs).length = 2 ^ k := by
    rw [hcosetperm.length_eq, hlen]
  have hrevperm : ((List.range (2 ^ k)).map (reverseBits k)).Perm
      (List.range (2 ^ k)) := by
    apply perm_range_of_index_list
    · apply List.Nodup.map_on _ (List.nodup_range _)
      intro a ha b hb hab
      rw [List.mem_range] at ha hb
      exact reverseBits_inj k a b ha hb hab
    · intro a ha
      simp only [List.mem_map, List.mem_range] at ha
      obtain ⟨i, hi, hia⟩ := ha
      exact hia ▸ reverseBits_lt k i
    · simp
  have hbit : (bitReverse k (cosetOrderToCircleDomainOrder xs)).Perm
      (cosetOrderToCircleDomainOrder xs) := by
    rw [bitReverse]
    have hmm : (List.range (2 ^ k)).map (fun j =>
        (cosetOrderToCircleDomainOrder xs).getD (reverseBits k j) default) =
        ((List.range (2 ^ k)).map (reverseBits k)).map
          (fun i => (cosetOrderToCircleDomainOrder xs).getD i default) := by
      rw [List.map_map]
      rfl
    rw [hmm]
    apply perm_of_getD_map
    rw [hlen2]
    exact hrevperm
  exact hbit.trans hcosetperm

/-- Witness for C9: a concrete four-row column is reordered into a
permutation of itself. -/
theorem finalize_reordering_perm_witness :
    (bitReverse 2 (cosetOrderToCircleDomainOrder
      [(10 : Nat), 20, 30, 40])).Perm [10, 20, 30, 40] :=
  finalize_reordering_perm 2 (by decide) [10, 20, 30, 40] (by decide)
